import Mathlib

/-!
Shallow embedding of `src/eES_gen.py` (class `eES_Gen`), the neutrino-electron
elastic-scattering event generator, together with proofs about the claims of
its specification.

Modelling conventions:
* Floating-point numbers are embedded as real numbers (exact arithmetic).
* The numpy random generator is embedded by passing its raw unit-interval
  draws explicitly: `rng.uniform(a, b)` is `uniform a b u = a + (b - a) * u`
  where `u` is the next raw draw (numpy computes uniform exactly this way,
  with `u ∈ [0, 1)`).  Theorems that need the range of a draw state
  `0 ≤ u ∧ u ≤ 1` as an explicit hypothesis.
* Fallible code (python `raise` / failing `assert`) returns `Except Err`.
  The error names follow the specification's error-kind table
  (`InvalidFlavorError`, `SamplingConvergenceError`, `KinematicError`,
  `InvariantViolation`); the python code raises `AssertionError` or
  `RuntimeError` at the corresponding places.
* `np.linalg.norm`, `np.cross`, `np.dot` on 3-vectors are embedded
  componentwise on a `Vec3` structure.
* In `genEvent`, when `sn_direction` is (anti)parallel to the z axis, the
  line `rotAxis = rotAxis / np.linalg.norm(rotAxis)` divides the zero vector
  by zero; numpy produces a NaN vector (no exception), the NaN propagates
  through `scipy` `Rotation.from_rotvec` and `rot.apply`, and the sanity
  assertion `np.isclose(np.dot(eDir, sn_direction), eCos)` at the end of
  `genEvent` then fails (`isclose` is false on NaN), so the call raises and
  no event is produced.  The embedding models this NaN propagation by
  checking `‖z × sn‖ = 0` at the position of that final assertion and
  returning `Err.invariantViolation` there.  In exact real arithmetic the
  final assertion is an exact equality test, which provably always passes on
  the non-degenerate path.
-/

noncomputable section

namespace EESGen

open Classical

/-- Error kinds raised by the generator, named as in the specification's
error table.  `outOfDraws` is a modelling artifact: the embedded rejection
sampler consumes a finite list of raw draws, and `outOfDraws` marks the
(unreachable, given enough draws) case where the list is exhausted. -/
inductive Err where
  | invalidFlavor
  | convergence
  | kinematic
  | invariantViolation
  | outOfDraws
deriving DecidableEq

/-- A 3-vector, embedding the `np.ndarray` of length 3. -/
@[ext]
structure Vec3 where
  x : ℝ
  y : ℝ
  z : ℝ

/-- Embedding of `np.dot` on 3-vectors. -/
def dot3 (a b : Vec3) : ℝ := a.x * b.x + a.y * b.y + a.z * b.z

/-- Embedding of `np.cross` on 3-vectors. -/
def cross3 (a b : Vec3) : Vec3 :=
  ⟨a.y * b.z - a.z * b.y, a.z * b.x - a.x * b.z, a.x * b.y - a.y * b.x⟩

/-- Scalar multiple of a 3-vector; `v / c` in the python code is
`v.smul (1 / c)`. -/
def Vec3.smul (v : Vec3) (c : ℝ) : Vec3 := ⟨c * v.x, c * v.y, c * v.z⟩

/-- Embedding of `np.linalg.norm` on 3-vectors. -/
def norm3 (v : Vec3) : ℝ := Real.sqrt (dot3 v v)

/-- The z axis vector `np.array([0, 0, 1])` of `genEvent`. -/
def zaxis : Vec3 := ⟨0, 0, 1⟩

/-- Embedding of `sn_direction / np.linalg.norm(sn_direction)`. -/
def normalize3 (v : Vec3) : Vec3 := v.smul (1 / norm3 v)

/-- Weak mixing angle `WMA = 0.23122` from `genEvent`. -/
def WMA : ℝ := 0.23122

/-- Electron mass in MeV, `me = 0.510998910` from `genEvent`. -/
def me : ℝ := 0.510998910

/-- The couplings `(ga, gv)` selected by the `if genFlavor == ...` chain in
`genEvent` (the final `else` branch covers `numubar` and `nutaubar`, the
only remaining values after `selectNu` has validated the flavor). -/
def couplings (fl : String) : ℝ × ℝ :=
  if fl = "nue" then (0.5, 2 * WMA + 1 / 2)
  else if fl = "nuebar" then (-0.5, 2 * WMA + 1 / 2)
  else if fl = "numu" ∨ fl = "nutau" then (-0.5, 2 * WMA - 1 / 2)
  else (0.5, 2 * WMA - 1 / 2)

/-- The closure `diff_xscn` of `genEvent`: the un-normalized differential
cross-section shape, for couplings `ga`, `gv` and neutrino energy `nuE`. -/
def diffXscnF (ga gv nuE T : ℝ) : ℝ :=
  (gv + ga) ^ 2 + (gv - ga) ^ 2 * (1 - T / nuE) ^ 2
    + (ga ^ 2 - gv ^ 2) * (me * T / nuE ^ 2)

/-- The kinematic maximum recoil energy `maxKE = 2*nuEnergy**2/(me + 2*nuEnergy)`
computed in `genEvent`. -/
def maxKEF (nuE : ℝ) : ℝ := 2 * nuE ^ 2 / (me + 2 * nuE)

/-- The recoil-angle cosine
`eCos = (nuEnergy + me) / nuEnergy * (eKE / (eKE + 2*me))**0.5` computed in
`genEvent` (`**0.5` on a nonnegative float is the square root). -/
def eCosF (nuE T : ℝ) : ℝ := (nuE + me) / nuE * Real.sqrt (T / (T + 2 * me))

/-- Embedding of `rng.uniform(a, b)`: numpy computes `a + (b - a) * u` where
`u` is the generator's next raw draw in `[0, 1)`. -/
def uniform (a b u : ℝ) : ℝ := a + (b - a) * u

/-- The acceptance test `y < func(x)` of `rejectionSampling`, expressed on a
raw draw pair `p = (ux, uy)`. -/
def accepts (f : ℝ → ℝ) (xmin xmax ymax : ℝ) (p : ℝ × ℝ) : Prop :=
  uniform 0 ymax p.2 < f (uniform xmin xmax p.1)

/-- The `while True` loop of `rejectionSampling`, with the running counter
`nIter` explicit and the generator's raw draw pairs supplied as a list.  One
loop iteration draws `x = rng.uniform(xmin, xmax)` and
`y = rng.uniform(0, ymax)`, returns `x` if `y < func(x)`, and otherwise
increments `nIter` and raises the convergence error once `nIter > 1000`. -/
def rejLoop (f : ℝ → ℝ) (xmin xmax ymax : ℝ) : ℕ → List (ℝ × ℝ) → Except Err ℝ
  | _, [] => .error .outOfDraws
  | nIter, p :: rest =>
    if accepts f xmin xmax ymax p then
      .ok (uniform xmin xmax p.1)
    else if nIter + 1 > 1000 then .error .convergence
    else rejLoop f xmin xmax ymax (nIter + 1) rest

/-- Embedding of `eES_Gen.rejectionSampling` (the loop starts with
`nIter = 0`). -/
def rejectionSampling (f : ℝ → ℝ) (xmin xmax ymax : ℝ)
    (draws : List (ℝ × ℝ)) : Except Err ℝ :=
  rejLoop f xmin xmax ymax 0 draws

/-- Embedding of `np.interp` on a list of `(x, y)` support points (the code
calls it with the equal-length arrays `nuEnergyBins` and
`eventRates[flavor]`, paired here by `List.zip`): for query points at or
below the first support point it returns the first value, beyond the last
support point the last value, and in between the linear interpolant on the
enclosing segment. -/
def interp (x : ℝ) : List (ℝ × ℝ) → ℝ
  | [] => 0
  | [p] => p.2
  | p :: q :: rest =>
    if x ≤ p.1 then p.2
    else if x ≤ q.1 then p.2 + (q.2 - p.2) * (x - p.1) / (q.1 - p.1)
    else interp x (q :: rest)

/-- Embedding of `np.max` on a nonempty list (the empty case is unreachable
in the generator, which always works on nonempty tables). -/
def npMax : List ℝ → ℝ
  | [] => 0
  | x :: xs => xs.foldl max x

/-- Embedding of `np.min` on a nonempty list. -/
def npMin : List ℝ → ℝ
  | [] => 0
  | x :: xs => xs.foldl min x

/-- The list `self.flavors` set in `eES_Gen.__init__`. -/
def flavors : List String := ["nue", "nuebar", "numu", "numubar", "nutau", "nutaubar"]

/-- The table data owned by a generator instance: `nuEnergyBins`,
`eventRates` (keyed by flavor) and `totalRates` (keyed by flavor), as loaded
by `__init__` from the six data files.  The RNG is not part of the state
here; its draws are passed explicitly to each operation. -/
structure GenState where
  nuEnergyBins : List ℝ
  eventRates : String → List ℝ
  totalRates : String → ℝ

/-- Embedding of `eES_Gen.getEventRate`:
`np.interp(nuEnergy, self.nuEnergyBins, self.eventRates[flavor])`.  The
`assert flavor in self.flavors` at its head is not modelled here; every call
site in the embedded code (and every claim about `getEventRate`) supplies a
validated flavor. -/
def getEventRate (st : GenState) (fl : String) (nuEnergy : ℝ) : ℝ :=
  interp nuEnergy (st.nuEnergyBins.zip (st.eventRates fl))

/-- Modelled from the spec: `rng.choice(self.flavors, p=flavorWeights)` in
`selectNu` draws one flavor from the categorical distribution with the given
probabilities.  `numpy.random.Generator.choice` itself is external to the
repository; it is modelled as inverse-CDF selection on one raw unit draw:
walk the weight list, picking the first index whose cumulative weight
exceeds the draw. -/
def cdfIndex : List ℝ → ℝ → ℕ
  | [], _ => 0
  | w :: ws, u => if u < w then 0 else cdfIndex ws (u - w) + 1

/-- The `flavor is None` branch of `selectNu`: normalize the per-flavor
total rates to selection weights and draw one flavor (see `cdfIndex`). -/
def choiceFlavor (totals : String → ℝ) (u : ℝ) : String :=
  let ws := flavors.map totals
  let s := ws.foldl (· + ·) 0
  flavors.getD (cdfIndex (ws.map (· / s)) u) "nue"

/-- Embedding of `eES_Gen.selectNu`.  If a flavor is supplied it is used as
is, otherwise one is drawn from the rate-weighted categorical distribution
(raw draw `fU`); `assert flavor in self.flavors` then rejects unknown
flavors; finally the neutrino energy is rejection-sampled from the
interpolated rate spectrum on
`[max(np.min(bins), nuThreshold), np.max(bins)]`, bounded by the maximum
per-bin rate (raw draw pairs `nd`). -/
def selectNu (st : GenState) (flavor : Option String) (nuThreshold : ℝ)
    (fU : ℝ) (nd : List (ℝ × ℝ)) : Except Err (String × ℝ) :=
  let fl := match flavor with
    | none => choiceFlavor st.totalRates fU
    | some f => f
  if fl ∈ flavors then
    match rejectionSampling (fun x => getEventRate st fl x)
        (max (npMin st.nuEnergyBins) nuThreshold) (npMax st.nuEnergyBins)
        (npMax (st.eventRates fl)) nd with
    | .ok e => .ok (fl, e)
    | .error err => .error err
  else .error .invalidFlavor

/-- The raw RNG draws consumed by one `genEvent` call, in the order the code
draws them: the flavor-choice draw (used only when no flavor is supplied),
the draw pairs of the neutrino-energy rejection loop, the three
`rng.uniform(-1, 1, size=3)` draws for a random supernova direction (used
only when none is supplied), the draw pairs of the recoil-energy rejection
loop, and the azimuthal draw for `rng.uniform(0, 2*np.pi)`. -/
structure Draws where
  flavorU : ℝ
  nuDraws : List (ℝ × ℝ)
  snU : Vec3
  eDraws : List (ℝ × ℝ)
  phiU : ℝ

/-- The supernova direction before normalization: the caller-supplied vector
if present, otherwise `rng.uniform(-1, 1, size=3)`. -/
def snRawOf (snIn : Option Vec3) (d : Draws) : Vec3 :=
  match snIn with
  | some v => v
  | none => ⟨uniform (-1) 1 d.snU.x, uniform (-1) 1 d.snU.y, uniform (-1) 1 d.snU.z⟩

/-- The rotation axis `np.cross(zaxis, sn) / np.linalg.norm(np.cross(zaxis, sn))`
built in `genEvent`. -/
def rotAxisOf (sn : Vec3) : Vec3 := (cross3 zaxis sn).smul (1 / norm3 (cross3 zaxis sn))

/-- The rotation angle `np.arccos(np.dot(sn_direction, zaxis))` built in
`genEvent`. -/
def rotAngleOf (sn : Vec3) : ℝ := Real.arccos (dot3 sn zaxis)

/-- Embedding of `R.from_rotvec(θ * a).apply(v)` for a unit axis `a` and
angle `θ ≥ 0`: the Rodrigues rotation
`v cos θ + (a × v) sin θ + a (a ⬝ v)(1 - cos θ)`. -/
def rodrigues (a : Vec3) (θ : ℝ) (v : Vec3) : Vec3 :=
  ⟨v.x * Real.cos θ + (cross3 a v).x * Real.sin θ + a.x * dot3 a v * (1 - Real.cos θ),
   v.y * Real.cos θ + (cross3 a v).y * Real.sin θ + a.y * dot3 a v * (1 - Real.cos θ),
   v.z * Real.cos θ + (cross3 a v).z * Real.sin θ + a.z * dot3 a v * (1 - Real.cos θ)⟩

/-- The electron direction in the neutrino frame,
`(sqrt(1 - eCos²) cos φ, sqrt(1 - eCos²) sin φ, eCos)`. -/
def eDir0 (eCos phi : ℝ) : Vec3 :=
  ⟨Real.sqrt (1 - eCos ^ 2) * Real.cos phi,
   Real.sqrt (1 - eCos ^ 2) * Real.sin phi, eCos⟩

/-- The event record returned by `genEvent` (the python dictionary). -/
structure Event where
  flavor : String
  nuEnergy : ℝ
  sn_direction : Vec3
  eKE : ℝ
  eDir : Vec3

/-- Embedding of `eES_Gen.genEvent`, following the source line by line:
select flavor and neutrino energy; normalize the supernova direction (a
random one is drawn when none is supplied); build the z-to-direction
rotation; look up the couplings; rejection-sample the recoil kinetic energy
from the differential cross-section shape on `[eThreshold, maxKE]`; compute
the recoil-angle cosine and assert it lies in `[-1, 1]` (else
`KinematicError`); draw the azimuth, build the neutrino-frame direction and
rotate it into the lab frame; finally assert
`np.isclose(np.dot(eDir, sn_direction), eCos)`.  When the rotation axis
`np.cross(zaxis, sn)` has zero norm the axis normalization divided by zero
and the rotation is NaN, so this final assertion fails: the embedding
returns `Err.invariantViolation` at that point (see the file header). -/
def genEvent (st : GenState) (snIn : Option Vec3) (flavor : Option String)
    (eThreshold nuThreshold : ℝ) (d : Draws) : Except Err Event :=
  match selectNu st flavor nuThreshold d.flavorU d.nuDraws with
  | .error err => .error err
  | .ok (genFlavor, nuEnergy) =>
    let sn := normalize3 (snRawOf snIn d)
    let axisNorm := norm3 (cross3 zaxis sn)
    let ga := (couplings genFlavor).1
    let gv := (couplings genFlavor).2
    match rejectionSampling (fun T => diffXscnF ga gv nuEnergy T)
        eThreshold (maxKEF nuEnergy) (diffXscnF ga gv nuEnergy 0) d.eDraws with
    | .error err => .error err
    | .ok eKE =>
      let eCos := eCosF nuEnergy eKE
      if -1 ≤ eCos ∧ eCos ≤ 1 then
        let eDir := rodrigues (rotAxisOf sn) (rotAngleOf sn)
          (eDir0 eCos (uniform 0 (2 * Real.pi) d.phiU))
        if axisNorm = 0 then .error .invariantViolation
        else if dot3 eDir sn = eCos then
          .ok ⟨genFlavor, nuEnergy, sn, eKE, eDir⟩
        else .error .invariantViolation
      else .error .kinematic

/-- A sequence of `genEvent` calls on one generator, each call with its own
arguments and its own stretch of the RNG draw stream. -/
def genEvents (st : GenState)
    (calls : List ((Option Vec3) × (Option String) × ℝ × ℝ × Draws)) :
    List (Except Err Event) :=
  calls.map fun c => genEvent st c.1 c.2.1 c.2.2.1 c.2.2.2.1 c.2.2.2.2

/-- Concrete generator table used to evaluate the embedded code on explicit
inputs: two energy bins at 2 and 20 MeV with rate 1 each, total rate 1 for
every flavor. -/
def stA : GenState := ⟨[2, 20], fun _ => [1, 1], fun _ => 1⟩

/-- Concrete raw RNG draws: every raw draw is 0 and each rejection loop
accepts its first candidate. -/
def drawsA : Draws := ⟨0, [(0, 0)], ⟨0, 0, 0⟩, [(0, 0)], 0⟩

/-- The recoil-angle cosine produced by the concrete run `runA_eval`
(neutrino energy 2 MeV, recoil kinetic energy 1 MeV). -/
def eCosA : ℝ := eCosF 2 1

/-- The event produced by the concrete run `runA_eval`. -/
def evA : Event := ⟨"nue", 2, ⟨1, 0, 0⟩, 1, ⟨eCosA, 0, -Real.sqrt (1 - eCosA ^ 2)⟩⟩

/-- Concrete generator table with distinct rates, used for the
interpolation witness: bins 1, 3, 7 MeV with rates 2, 6, 4. -/
def stB : GenState := ⟨[1, 3, 7], fun _ => [2, 6, 4], fun _ => 12⟩

/-- Concrete generator table whose lowest bin sits at 1 MeV, used to drive
a run with neutrino energy 1 MeV into the kinematic guard. -/
def stC : GenState := ⟨[1, 20], fun _ => [1, 1], fun _ => 1⟩

/-- The raw draw that makes the recoil-energy loop on
`[1, maxKEF 1]` return exactly `18 * me / 7` (a value whose recoil-angle
cosine is rational and greater than 1). -/
def uC : ℝ := (18 * me / 7 - 1) / (maxKEF 1 - 1)

/-- Concrete raw RNG draws for the kinematic-guard run. -/
def drawsC : Draws := ⟨0, [(0, 0)], ⟨0, 0, 0⟩, [(uC, 0)], 0⟩

/-- Concrete raw RNG draws selecting neutrino energy 10 MeV and, with
`eThreshold = 12`, a recoil kinetic energy of exactly `maxKEF 10 < 12`. -/
def drawsD : Draws := ⟨0, [(4 / 9, 0)], ⟨0, 0, 0⟩, [(1, 0)], 0⟩

/-- The event produced by the run `runD_eval` (recoil-angle cosine exactly
1, so the recoil direction coincides with the supernova direction). -/
def evD : Event := ⟨"nue", 10, ⟨1, 0, 0⟩, maxKEF 10, ⟨1, 0, 0⟩⟩

/-- A raw draw list whose first 1000 candidates are rejected (for the
constant target function 1 with bound 2) and whose 1001st candidate is
accepted. -/
def draws1000 : List (ℝ × ℝ) := List.replicate 1000 (0, 1) ++ [(1 / 2, 0)]

/-!
Helper lemmas: vector algebra and the Rodrigues rotation.
-/

theorem dot3_self_nonneg (v : Vec3) : 0 ≤ dot3 v v := by
  unfold dot3
  nlinarith [mul_self_nonneg v.x, mul_self_nonneg v.y, mul_self_nonneg v.z]

theorem norm3_sq (v : Vec3) : norm3 v ^ 2 = dot3 v v :=
  Real.sq_sqrt (dot3_self_nonneg v)

theorem norm3_eq_zero_iff (v : Vec3) : norm3 v = 0 ↔ v = ⟨0, 0, 0⟩ := by
  constructor
  · intro h
    unfold norm3 at h
    have hd : dot3 v v ≤ 0 := Iff.mp Real.sqrt_eq_zero' h
    have hd0 : dot3 v v = 0 := le_antisymm hd (dot3_self_nonneg v)
    unfold dot3 at hd0
    have hx : v.x = 0 := by
      have h1 : v.x * v.x ≤ 0 := by nlinarith [mul_self_nonneg v.y, mul_self_nonneg v.z]
      exact mul_self_eq_zero.mp (le_antisymm h1 (mul_self_nonneg v.x))
    have hy : v.y = 0 := by
      have h1 : v.y * v.y ≤ 0 := by nlinarith [mul_self_nonneg v.x, mul_self_nonneg v.z]
      exact mul_self_eq_zero.mp (le_antisymm h1 (mul_self_nonneg v.y))
    have hz : v.z = 0 := by
      have h1 : v.z * v.z ≤ 0 := by nlinarith [mul_self_nonneg v.x, mul_self_nonneg v.y]
      exact mul_self_eq_zero.mp (le_antisymm h1 (mul_self_nonneg v.z))
    exact Vec3.ext hx hy hz
  · intro h
    subst h
    simp [norm3, dot3]

theorem norm3_normalize (v : Vec3) (h : norm3 v ≠ 0) : norm3 (normalize3 v) = 1 := by
  have hd : dot3 (normalize3 v) (normalize3 v) = (1 / norm3 v) ^ 2 * dot3 v v := by
    unfold normalize3 Vec3.smul dot3
    ring
  have h1 : (1 / norm3 v) ^ 2 * dot3 v v = 1 := by
    rw [← norm3_sq]
    field_simp
  unfold norm3
  rw [hd, h1, Real.sqrt_one]

theorem dot3_normalize_self (v : Vec3) (h : norm3 v ≠ 0) :
    dot3 (normalize3 v) (normalize3 v) = 1 := by
  have hd : dot3 (normalize3 v) (normalize3 v) = (1 / norm3 v) ^ 2 * dot3 v v := by
    unfold normalize3 Vec3.smul dot3
    ring
  rw [hd, ← norm3_sq]
  field_simp

theorem dot3_rotAxisOf_self (sn : Vec3) (h : norm3 (cross3 zaxis sn) ≠ 0) :
    dot3 (rotAxisOf sn) (rotAxisOf sn) = 1 :=
  dot3_normalize_self (cross3 zaxis sn) h

theorem rodrigues_dot (a : Vec3) (θ : ℝ) (u v : Vec3) (ha : dot3 a a = 1) :
    dot3 (rodrigues a θ u) (rodrigues a θ v) = dot3 u v := by
  have hc : Real.sin θ ^ 2 + Real.cos θ ^ 2 = 1 := Real.sin_sq_add_cos_sq θ
  simp only [dot3] at ha
  simp only [rodrigues, dot3, cross3]
  linear_combination
    ((u.x * v.x + u.y * v.y + u.z * v.z)
        - (a.x * u.x + a.y * u.y + a.z * u.z) * (a.x * v.x + a.y * v.y + a.z * v.z)) * hc
    + (Real.sin θ ^ 2 * (u.x * v.x + u.y * v.y + u.z * v.z)
        + (1 - Real.cos θ) ^ 2
          * ((a.x * u.x + a.y * u.y + a.z * u.z) * (a.x * v.x + a.y * v.y + a.z * v.z))) * ha

theorem norm3_rodrigues (a : Vec3) (θ : ℝ) (v : Vec3) (ha : dot3 a a = 1) :
    norm3 (rodrigues a θ v) = norm3 v := by
  unfold norm3
  rw [rodrigues_dot a θ v v ha]

theorem dot3_eDir0_self (e φ : ℝ) (h : e ^ 2 ≤ 1) :
    dot3 (eDir0 e φ) (eDir0 e φ) = 1 := by
  have hs : Real.sqrt (1 - e ^ 2) ^ 2 = 1 - e ^ 2 := Real.sq_sqrt (by linarith)
  have hc : Real.sin φ ^ 2 + Real.cos φ ^ 2 = 1 := Real.sin_sq_add_cos_sq φ
  simp only [dot3, eDir0]
  linear_combination (Real.cos φ ^ 2 + Real.sin φ ^ 2) * hs + (1 - e ^ 2) * hc

theorem uniform_bounds (a b u : ℝ) (h0 : 0 ≤ u) (h1 : u ≤ 1) (hab : a ≤ b) :
    a ≤ uniform a b u ∧ uniform a b u ≤ b := by
  unfold uniform
  constructor <;> nlinarith

/-!
Helper lemmas: the rejection-sampling loop.
-/

theorem rejLoop_error_of (f : ℝ → ℝ) (xmin xmax ymax : ℝ) :
    ∀ (draws : List (ℝ × ℝ)) (n : ℕ), n ≤ 1000 → 1001 - n ≤ draws.length →
    (∀ i < 1001 - n, ¬ accepts f xmin xmax ymax (draws.getD i (0, 0))) →
    rejLoop f xmin xmax ymax n draws = .error .convergence := by
  intro draws
  induction draws with
  | nil =>
    intro n hn hlen _
    simp at hlen
    omega
  | cons p rest ih =>
    intro n hn hlen hrej
    have h0 : ¬ accepts f xmin xmax ymax p := by
      simpa using hrej 0 (by omega)
    simp only [rejLoop]
    rw [if_neg h0]
    by_cases hn1 : n + 1 > 1000
    · rw [if_pos hn1]
    · rw [if_neg hn1]
      apply ih (n + 1) (by omega)
      · simp at hlen
        omega
      · intro i hi
        simpa using hrej (i + 1) (by omega)

theorem rejLoop_error_implies (f : ℝ → ℝ) (xmin xmax ymax : ℝ) :
    ∀ (draws : List (ℝ × ℝ)) (n : ℕ),
    rejLoop f xmin xmax ymax n draws = .error .convergence →
    ∀ i < 1001 - n, ¬ accepts f xmin xmax ymax (draws.getD i (0, 0)) := by
  intro draws
  induction draws with
  | nil =>
    intro n h
    simp [rejLoop] at h
  | cons p rest ih =>
    intro n h i hi
    simp only [rejLoop] at h
    by_cases hacc : accepts f xmin xmax ymax p
    · rw [if_pos hacc] at h
      simp at h
    · rw [if_neg hacc] at h
      by_cases hn1 : n + 1 > 1000
      · have hi0 : i = 0 := by omega
        subst hi0
        simpa using hacc
      · rw [if_neg hn1] at h
        rcases i with _ | j
        · simpa using hacc
        · simpa using ih (n + 1) h j (by omega)

theorem rejLoop_accept (f : ℝ → ℝ) (xmin xmax ymax : ℝ) :
    ∀ (draws : List (ℝ × ℝ)) (n i : ℕ), i < draws.length → n + i ≤ 1000 →
    (∀ j < i, ¬ accepts f xmin xmax ymax (draws.getD j (0, 0))) →
    accepts f xmin xmax ymax (draws.getD i (0, 0)) →
    rejLoop f xmin xmax ymax n draws = .ok (uniform xmin xmax (draws.getD i (0, 0)).1) := by
  intro draws
  induction draws with
  | nil =>
    intro n i hi
    simp at hi
  | cons p rest ih =>
    intro n i hi hn hrej hacc
    rcases i with _ | j
    · simp only [List.getD_cons_zero] at hacc ⊢
      simp only [rejLoop]
      rw [if_pos hacc]
    · have h0 : ¬ accepts f xmin xmax ymax p := by
        simpa using hrej 0 (by omega)
      simp only [rejLoop]
      rw [if_neg h0, if_neg (by omega : ¬ n + 1 > 1000)]
      simp only [List.getD_cons_succ] at hacc ⊢
      exact ih (n + 1) j (by simpa using hi) (by omega)
        (fun k hk => by simpa using hrej (k + 1) (by omega)) hacc

theorem rejLoop_ok_mem (f : ℝ → ℝ) (xmin xmax ymax : ℝ) :
    ∀ (draws : List (ℝ × ℝ)) (n : ℕ) (x : ℝ),
    rejLoop f xmin xmax ymax n draws = .ok x →
    ∃ p ∈ draws, x = uniform xmin xmax p.1 ∧ accepts f xmin xmax ymax p := by
  intro draws
  induction draws with
  | nil =>
    intro n x h
    simp [rejLoop] at h
  | cons p rest ih =>
    intro n x h
    simp only [rejLoop] at h
    by_cases hacc : accepts f xmin xmax ymax p
    · rw [if_pos hacc] at h
      simp only [Except.ok.injEq] at h
      exact ⟨p, by simp, h.symm, hacc⟩
    · rw [if_neg hacc] at h
      by_cases hn1 : n + 1 > 1000
      · rw [if_pos hn1] at h
        simp at h
      · rw [if_neg hn1] at h
        obtain ⟨q, hq, hx, ha⟩ := ih (n + 1) x h
        exact ⟨q, by simp [hq], hx, ha⟩

/-!
Helper lemmas: `np.interp` on a strictly increasing list of support points.
-/

theorem sorted_fst_lt (l : List (ℝ × ℝ)) (hs : (l.map Prod.fst).Chain' (· < ·))
    (i j : ℕ) (hij : i < j) (hj : j < l.length) :
    (l.getD i (0, 0)).1 < (l.getD j (0, 0)).1 := by
  have hpw : (l.map Prod.fst).Pairwise (· < ·) := List.chain'_iff_pairwise.mp hs
  have hi : i < l.length := lt_trans hij hj
  rw [List.getD_eq_getElem l (0, 0) hi, List.getD_eq_getElem l (0, 0) hj]
  have h := List.pairwise_iff_get.mp hpw ⟨i, by simpa using hi⟩ ⟨j, by simpa using hj⟩
    (by simpa using hij)
  simpa using h

theorem sorted_fst_le (l : List (ℝ × ℝ)) (hs : (l.map Prod.fst).Chain' (· < ·))
    (i j : ℕ) (hij : i ≤ j) (hj : j < l.length) :
    (l.getD i (0, 0)).1 ≤ (l.getD j (0, 0)).1 := by
  rcases lt_or_eq_of_le hij with h | h
  · exact le_of_lt (sorted_fst_lt l hs i j h hj)
  · rw [h]

theorem getLast_eq_getD (l : List (ℝ × ℝ)) (hne : l ≠ []) :
    l.getLast hne = l.getD (l.length - 1) (0, 0) := by
  rw [List.getLast_eq_get, List.getD_eq_getElem l (0, 0) (by
    have := List.length_pos.mpr hne
    omega)]
  simp

theorem interp_below (x : ℝ) (p : ℝ × ℝ) (rest : List (ℝ × ℝ)) (hx : x ≤ p.1) :
    interp x (p :: rest) = p.2 := by
  cases rest with
  | nil => simp [interp]
  | cons q r => simp [interp, if_pos hx]

theorem interp_edges :
    ∀ (l : List (ℝ × ℝ)), (l.map Prod.fst).Chain' (· < ·) →
    ∀ i < l.length, interp (l.getD i (0, 0)).1 l = (l.getD i (0, 0)).2 := by
  intro l
  induction l with
  | nil =>
    intro _ i hi
    simp at hi
  | cons p rest ih =>
    intro hs i hi
    cases rest with
    | nil =>
      have hi0 : i = 0 := by simpa using hi
      subst hi0
      simp [interp]
    | cons q r =>
      rcases i with _ | j
      · simpa [interp] using interp_below p.1 p (q :: r) le_rfl
      · have hgt : p.1 < ((q :: r).getD j (0, 0)).1 := by
          have h := sorted_fst_lt (p :: q :: r) hs 0 (j + 1) (by omega) (by simpa using hi)
          simpa using h
        simp only [List.getD_cons_succ]
        simp only [interp]
        rw [if_neg (not_le.mpr hgt)]
        rcases j with _ | k
        · simp only [List.getD_cons_zero]
          rw [if_pos le_rfl]
          have hne : q.1 - p.1 ≠ 0 := sub_ne_zero.mpr (ne_of_gt (by simpa using hgt))
          field_simp
        · have hq : q.1 < ((r.getD k (0, 0))).1 := by
            have h := sorted_fst_lt (q :: r) (List.Chain'.tail hs) 0 (k + 1)
              (by omega) (by simpa using hi)
            simpa using h
          simp only [List.getD_cons_succ] at hq ⊢
          rw [if_neg (not_le.mpr hq)]
          have h := ih (List.Chain'.tail hs) (k + 1) (by simpa using hi)
          simpa using h

theorem interp_above (x : ℝ) :
    ∀ (l : List (ℝ × ℝ)), (l.map Prod.fst).Chain' (· < ·) →
    ∀ (hne : l ≠ []), (l.getLast hne).1 ≤ x → interp x l = (l.getLast hne).2 := by
  intro l
  induction l with
  | nil =>
    intro _ hne
    exact absurd rfl hne
  | cons p rest ih =>
    intro hs hne hx
    cases rest with
    | nil => simp [interp]
    | cons q r =>
      rw [List.getLast_cons (List.cons_ne_nil q r)] at hx ⊢
      have hgt : p.1 < ((q :: r).getLast (List.cons_ne_nil q r)).1 := by
        rw [getLast_eq_getD]
        have h := sorted_fst_lt (p :: q :: r) hs 0 ((q :: r).length - 1 + 1)
          (by omega) (by simp)
        simpa using h
      simp only [interp]
      rw [if_neg (not_le.mpr (lt_of_lt_of_le hgt hx))]
      by_cases h2 : x ≤ q.1
      · cases r with
        | nil =>
          simp only [List.getLast_singleton] at hx ⊢
          have hxq : x = q.1 := le_antisymm h2 hx
          have hne2 : q.1 - p.1 ≠ 0 := by
            have h := sorted_fst_lt (p :: q :: ([] : List (ℝ × ℝ))) hs 0 1 (by omega) (by simp)
            simp only [List.getD_cons_zero, List.getD_cons_succ] at h
            exact sub_ne_zero.mpr (ne_of_gt h)
          rw [if_pos h2, hxq]
          field_simp
        | cons r0 rr =>
          exfalso
          have hql : q.1 < ((q :: r0 :: rr).getLast (List.cons_ne_nil q (r0 :: rr))).1 := by
            rw [getLast_eq_getD]
            have h := sorted_fst_lt (q :: r0 :: rr) (List.Chain'.tail hs) 0
              ((r0 :: rr).length - 1 + 1) (by omega) (by simp)
            simpa using h
          exact absurd (le_trans hx h2) (not_le.mpr hql)
      · rw [if_neg h2]
        exact ih (List.Chain'.tail hs) (List.cons_ne_nil q r) hx

theorem interp_segment (x : ℝ) :
    ∀ (l : List (ℝ × ℝ)), (l.map Prod.fst).Chain' (· < ·) →
    ∀ (i : ℕ), i + 1 < l.length →
    (l.getD i (0, 0)).1 ≤ x → x ≤ (l.getD (i + 1) (0, 0)).1 →
    interp x l = (l.getD i (0, 0)).2
      + ((l.getD (i + 1) (0, 0)).2 - (l.getD i (0, 0)).2)
        * (x - (l.getD i (0, 0)).1)
        / ((l.getD (i + 1) (0, 0)).1 - (l.getD i (0, 0)).1) := by
  intro l
  induction l with
  | nil =>
    intro _ i hi
    simp at hi
  | cons p rest ih =>
    intro hs i hi hl hr
    cases rest with
    | nil => simp at hi
    | cons q r =>
      rcases i with _ | j
      · simp only [List.getD_cons_zero, List.getD_cons_succ] at hl hr ⊢
        simp only [interp]
        by_cases h0 : x ≤ p.1
        · have hxp : x = p.1 := le_antisymm h0 hl
          rw [if_pos h0, hxp]
          simp
        · rw [if_neg h0, if_pos hr]
      · have hgt : p.1 < ((q :: r).getD j (0, 0)).1 := by
          have h := sorted_fst_lt (p :: q :: r) hs 0 (j + 1) (by omega) (by simp at hi ⊢; omega)
          simpa using h
        simp only [List.getD_cons_succ] at hl hr ⊢
        simp only [interp]
        rw [if_neg (not_le.mpr (lt_of_lt_of_le hgt hl))]
        rcases j with _ | k
        · simp only [List.getD_cons_zero] at hl hgt
          by_cases h2 : x ≤ q.1
          · have hxq : x = q.1 := le_antisymm h2 hl
            rw [if_pos h2, hxq]
            have hne : q.1 - p.1 ≠ 0 := sub_ne_zero.mpr (ne_of_gt hgt)
            simp only [List.getD_cons_zero, List.getD_cons_succ]
            field_simp
          · rw [if_neg h2]
            exact ih (List.Chain'.tail hs) 0 (by simpa using hi) hl hr
        · have hq : q.1 < ((q :: r).getD (k + 1) (0, 0)).1 := by
            have h := sorted_fst_lt (q :: r) (List.Chain'.tail hs) 0 (k + 1)
              (by omega) (by simp at hi ⊢; omega)
            simpa using h
          simp only [List.getD_cons_succ] at hq
          rw [if_neg (not_le.mpr (lt_of_lt_of_le hq hl))]
          exact ih (List.Chain'.tail hs) (k + 1) (by simpa using hi) hl hr

/-!
Helper lemmas: inverting a successful `genEvent` run.
-/

theorem genEvent_ok_elim {st : GenState} {snIn : Option Vec3} {flavor : Option String}
    {eThr nuThr : ℝ} {d : Draws} {ev : Event}
    (h : genEvent st snIn flavor eThr nuThr d = .ok ev) :
    ∃ fl Eν T,
      selectNu st flavor nuThr d.flavorU d.nuDraws = .ok (fl, Eν) ∧
      rejectionSampling (fun t => diffXscnF (couplings fl).1 (couplings fl).2 Eν t)
        eThr (maxKEF Eν) (diffXscnF (couplings fl).1 (couplings fl).2 Eν 0)
        d.eDraws = .ok T ∧
      (-1 ≤ eCosF Eν T ∧ eCosF Eν T ≤ 1) ∧
      norm3 (cross3 zaxis (normalize3 (snRawOf snIn d))) ≠ 0 ∧
      dot3 (rodrigues (rotAxisOf (normalize3 (snRawOf snIn d)))
          (rotAngleOf (normalize3 (snRawOf snIn d)))
          (eDir0 (eCosF Eν T) (uniform 0 (2 * Real.pi) d.phiU)))
        (normalize3 (snRawOf snIn d)) = eCosF Eν T ∧
      ev = ⟨fl, Eν, normalize3 (snRawOf snIn d), T,
        rodrigues (rotAxisOf (normalize3 (snRawOf snIn d)))
          (rotAngleOf (normalize3 (snRawOf snIn d)))
          (eDir0 (eCosF Eν T) (uniform 0 (2 * Real.pi) d.phiU))⟩ := by
  simp only [genEvent] at h
  split at h
  · simp at h
  · rename_i fl Eν hsel
    split at h
    · simp at h
    · rename_i T hrej
      split at h
      · rename_i hguard
        split at h
        · simp at h
        · rename_i haxis
          split at h
          · rename_i hdot
            simp only [Except.ok.injEq] at h
            exact ⟨fl, Eν, T, hsel, hrej, hguard, haxis, hdot, h.symm⟩
          · simp at h
      · simp at h

theorem genEvent_parallel_z_not_ok (st : GenState) (v : Vec3)
    (flavor : Option String) (eThr nuThr : ℝ) (d : Draws) (ev : Event)
    (hpar : cross3 zaxis (normalize3 v) = ⟨0, 0, 0⟩) :
    genEvent st (some v) flavor eThr nuThr d ≠ .ok ev := by
  intro h
  obtain ⟨fl, Eν, T, _, _, _, haxis, _, _⟩ := genEvent_ok_elim h
  apply haxis
  simp only [snRawOf] at *
  rw [hpar]
  simp [norm3, dot3]

/-!
Concrete evaluation lemmas on the table `stA` and the draws `drawsA`.
-/

theorem selectNuA : selectNu stA (some "nue") 2 0 [(0, 0)] = .ok ("nue", 2) := by
  have hacc : accepts (fun x => getEventRate stA "nue" x)
      (max (npMin stA.nuEnergyBins) 2) (npMax stA.nuEnergyBins)
      (npMax (stA.eventRates "nue")) (0, 0) := by
    unfold accepts uniform stA getEventRate npMax npMin
    norm_num [interp]
  unfold selectNu rejectionSampling
  rw [if_pos (by simp [flavors] : ("nue" : String) ∈ flavors)]
  rw [rejLoop, if_pos hacc]
  unfold uniform stA npMax npMin
  norm_num

theorem rejE_A : rejectionSampling
    (fun t => diffXscnF (couplings "nue").1 (couplings "nue").2 2 t) 1 (maxKEF 2)
    (diffXscnF (couplings "nue").1 (couplings "nue").2 2 0) [(0, 0)] = .ok 1 := by
  have hacc : accepts (fun t => diffXscnF (couplings "nue").1 (couplings "nue").2 2 t)
      1 (maxKEF 2) (diffXscnF (couplings "nue").1 (couplings "nue").2 2 0) (0, 0) := by
    unfold accepts uniform diffXscnF couplings maxKEF WMA me
    norm_num
  unfold rejectionSampling
  rw [rejLoop, if_pos hacc]
  unfold uniform
  norm_num

theorem eCosF21_mem : -1 ≤ eCosF 2 1 ∧ eCosF 2 1 ≤ 1 := by
  have h1 : eCosF 2 1 = (2 + me) / 2 * Real.sqrt (1 / (1 + 2 * me)) := rfl
  have hnn : (0 : ℝ) ≤ Real.sqrt (1 / (1 + 2 * me)) := Real.sqrt_nonneg _
  have hco : (0 : ℝ) ≤ (2 + me) / 2 := by unfold me; norm_num
  constructor
  · rw [h1]
    nlinarith
  · rw [h1]
    have hsq : Real.sqrt (1 / (1 + 2 * me)) ≤ 2 / (2 + me) := by
      have h2 : (1 : ℝ) / (1 + 2 * me) ≤ (2 / (2 + me)) ^ 2 := by
        unfold me
        norm_num
      calc Real.sqrt (1 / (1 + 2 * me)) ≤ Real.sqrt ((2 / (2 + me)) ^ 2) :=
            Real.sqrt_le_sqrt h2
        _ = 2 / (2 + me) := Real.sqrt_sq (by unfold me; norm_num)
    calc (2 + me) / 2 * Real.sqrt (1 / (1 + 2 * me))
        ≤ (2 + me) / 2 * (2 / (2 + me)) := by nlinarith
      _ = 1 := by unfold me; norm_num

theorem norm3_v200 : norm3 ⟨2, 0, 0⟩ = 2 := by
  unfold norm3 dot3
  rw [show (2 : ℝ) * 2 + 0 * 0 + 0 * 0 = 2 ^ 2 by norm_num]
  exact Real.sqrt_sq (by norm_num)

theorem normalize_v200 : normalize3 ⟨2, 0, 0⟩ = ⟨1, 0, 0⟩ := by
  unfold normalize3 Vec3.smul
  rw [norm3_v200]
  ext <;> norm_num

theorem cross_z_100 : cross3 zaxis ⟨1, 0, 0⟩ = ⟨0, 1, 0⟩ := by
  unfold cross3 zaxis
  ext <;> norm_num

theorem norm3_v010 : norm3 ⟨0, 1, 0⟩ = 1 := by
  unfold norm3 dot3
  rw [show (0 : ℝ) * 0 + 1 * 1 + 0 * 0 = 1 by norm_num]
  exact Real.sqrt_one

theorem rotAxis_100 : rotAxisOf ⟨1, 0, 0⟩ = ⟨0, 1, 0⟩ := by
  unfold rotAxisOf
  rw [cross_z_100, norm3_v010]
  unfold Vec3.smul
  ext <;> norm_num

theorem rotAngle_100 : rotAngleOf ⟨1, 0, 0⟩ = Real.arccos 0 := by
  unfold rotAngleOf zaxis dot3
  norm_num

theorem rodrigues_y_halfpi (sx e : ℝ) :
    rodrigues ⟨0, 1, 0⟩ (Real.arccos 0) ⟨sx, 0, e⟩ = ⟨e, 0, -sx⟩ := by
  have hc : Real.cos (Real.arccos 0) = 0 := Real.cos_arccos (by norm_num) (by norm_num)
  have hs : Real.sin (Real.arccos 0) = 1 := by
    rw [Real.sin_arccos]
    norm_num
  unfold rodrigues cross3 dot3
  rw [hc, hs]
  ext <;> norm_num

theorem eDir0_phi_zero (e : ℝ) : eDir0 e 0 = ⟨Real.sqrt (1 - e ^ 2), 0, e⟩ := by
  unfold eDir0
  rw [Real.cos_zero, Real.sin_zero]
  ext <;> norm_num

theorem uniform_phi_zero : uniform 0 (2 * Real.pi) 0 = 0 := by
  unfold uniform
  ring

theorem runA_eval : genEvent stA (some ⟨2, 0, 0⟩) (some "nue") 1 2 drawsA = .ok evA := by
  simp only [genEvent, drawsA, snRawOf, normalize_v200]
  rw [selectNuA]
  simp only [rejE_A]
  rw [if_pos eCosF21_mem]
  rw [cross_z_100, norm3_v010]
  rw [if_neg (by norm_num : ¬ (1 : ℝ) = 0)]
  rw [rotAxis_100, rotAngle_100, uniform_phi_zero, eDir0_phi_zero,
    rodrigues_y_halfpi]
  rw [if_pos (by unfold dot3; ring)]
  simp only [evA, eCosA, Except.ok.injEq]

theorem norm3_v001 : norm3 ⟨0, 0, 1⟩ = 1 := by
  unfold norm3 dot3
  rw [show (0 : ℝ) * 0 + 0 * 0 + 1 * 1 = 1 by norm_num]
  exact Real.sqrt_one

theorem normalize_v001 : normalize3 ⟨0, 0, 1⟩ = ⟨0, 0, 1⟩ := by
  unfold normalize3 Vec3.smul
  rw [norm3_v001]
  ext <;> norm_num

theorem norm3_v002 : norm3 ⟨0, 0, 2⟩ = 2 := by
  unfold norm3 dot3
  rw [show (0 : ℝ) * 0 + 0 * 0 + 2 * 2 = 2 ^ 2 by norm_num]
  exact Real.sqrt_sq (by norm_num)

theorem normalize_v002 : normalize3 ⟨0, 0, 2⟩ = ⟨0, 0, 1⟩ := by
  unfold normalize3 Vec3.smul
  rw [norm3_v002]
  ext <;> norm_num

theorem cross_z_001 : cross3 zaxis ⟨0, 0, 1⟩ = ⟨0, 0, 0⟩ := by
  unfold cross3 zaxis
  ext <;> norm_num

theorem norm3_v000 : norm3 ⟨0, 0, 0⟩ = 0 := by
  unfold norm3 dot3
  rw [show (0 : ℝ) * 0 + 0 * 0 + 0 * 0 = 0 by norm_num]
  exact Real.sqrt_zero

theorem runZ_eval : genEvent stA (some ⟨0, 0, 1⟩) (some "nue") 1 2 drawsA
    = .error .invariantViolation := by
  simp only [genEvent, drawsA, snRawOf, normalize_v001]
  rw [selectNuA]
  simp only [rejE_A]
  rw [if_pos eCosF21_mem]
  rw [cross_z_001, norm3_v000]
  rw [if_pos rfl]

theorem runZ2_eval : genEvent stA (some ⟨0, 0, 2⟩) (some "nue") 1 2 drawsA
    = .error .invariantViolation := by
  simp only [genEvent, drawsA, snRawOf, normalize_v002]
  rw [selectNuA]
  simp only [rejE_A]
  rw [if_pos eCosF21_mem]
  rw [cross_z_001, norm3_v000]
  rw [if_pos rfl]

theorem selectNuD : selectNu stA (some "nue") 2 0 [(4 / 9, 0)] = .ok ("nue", 10) := by
  have hacc : accepts (fun x => getEventRate stA "nue" x)
      (max (npMin stA.nuEnergyBins) 2) (npMax stA.nuEnergyBins)
      (npMax (stA.eventRates "nue")) (4 / 9, 0) := by
    unfold accepts uniform stA getEventRate npMax npMin
    norm_num [interp]
  unfold selectNu rejectionSampling
  rw [if_pos (by simp [flavors] : ("nue" : String) ∈ flavors)]
  rw [rejLoop, if_pos hacc]
  unfold uniform stA npMax npMin
  norm_num

theorem rejE_D : rejectionSampling
    (fun t => diffXscnF (couplings "nue").1 (couplings "nue").2 10 t) 12 (maxKEF 10)
    (diffXscnF (couplings "nue").1 (couplings "nue").2 10 0) [(1, 0)] = .ok (maxKEF 10) := by
  have hacc : accepts (fun t => diffXscnF (couplings "nue").1 (couplings "nue").2 10 t)
      12 (maxKEF 10) (diffXscnF (couplings "nue").1 (couplings "nue").2 10 0) (1, 0) := by
    unfold accepts uniform diffXscnF couplings maxKEF WMA me
    norm_num
  unfold rejectionSampling
  rw [rejLoop, if_pos hacc]
  unfold uniform
  norm_num

theorem eCosD_eq_one : eCosF 10 (maxKEF 10) = 1 := by
  unfold eCosF
  rw [show maxKEF 10 / (maxKEF 10 + 2 * me) = (10 / (10 + me)) ^ 2 from by
    unfold maxKEF me
    norm_num]
  rw [Real.sqrt_sq (by unfold me; norm_num)]
  unfold me
  norm_num

theorem runD_eval : genEvent stA (some ⟨2, 0, 0⟩) (some "nue") 12 2 drawsD = .ok evD := by
  simp only [genEvent, drawsD, snRawOf, normalize_v200]
  rw [selectNuD]
  simp only [rejE_D]
  rw [if_pos (by rw [eCosD_eq_one]; norm_num :
    -1 ≤ eCosF 10 (maxKEF 10) ∧ eCosF 10 (maxKEF 10) ≤ 1)]
  rw [cross_z_100, norm3_v010]
  rw [if_neg (by norm_num : ¬ (1 : ℝ) = 0)]
  rw [rotAxis_100, rotAngle_100, uniform_phi_zero, eCosD_eq_one, eDir0_phi_zero]
  rw [show (1 : ℝ) - 1 ^ 2 = 0 by norm_num, Real.sqrt_zero]
  rw [rodrigues_y_halfpi]
  rw [if_pos (by unfold dot3; ring)]
  simp only [evD, Except.ok.injEq, neg_zero]

theorem selectNuC : selectNu stC (some "nue") 1 0 [(0, 0)] = .ok ("nue", 1) := by
  have hacc : accepts (fun x => getEventRate stC "nue" x)
      (max (npMin stC.nuEnergyBins) 1) (npMax stC.nuEnergyBins)
      (npMax (stC.eventRates "nue")) (0, 0) := by
    unfold accepts uniform stC getEventRate npMax npMin
    norm_num [interp]
  unfold selectNu rejectionSampling
  rw [if_pos (by simp [flavors] : ("nue" : String) ∈ flavors)]
  rw [rejLoop, if_pos hacc]
  unfold uniform stC npMax npMin
  norm_num

theorem uniformC_eval : uniform 1 (maxKEF 1) uC = 18 * me / 7 := by
  unfold uniform uC maxKEF me
  norm_num

theorem rejE_C : rejectionSampling
    (fun t => diffXscnF (couplings "nue").1 (couplings "nue").2 1 t) 1 (maxKEF 1)
    (diffXscnF (couplings "nue").1 (couplings "nue").2 1 0) [(uC, 0)]
    = .ok (18 * me / 7) := by
  have hacc : accepts (fun t => diffXscnF (couplings "nue").1 (couplings "nue").2 1 t)
      1 (maxKEF 1) (diffXscnF (couplings "nue").1 (couplings "nue").2 1 0) (uC, 0) := by
    unfold accepts
    rw [show ((uC, (0 : ℝ)).1 : ℝ) = uC from rfl]
    rw [uniformC_eval]
    unfold uniform diffXscnF couplings WMA me
    norm_num
  unfold rejectionSampling
  rw [rejLoop, if_pos hacc]
  rw [show ((uC, (0 : ℝ)).1 : ℝ) = uC from rfl, uniformC_eval]

theorem eCosC_out : ¬ (-1 ≤ eCosF 1 (18 * me / 7) ∧ eCosF 1 (18 * me / 7) ≤ 1) := by
  have h : eCosF 1 (18 * me / 7) = (1 + me) * (3 / 4) := by
    unfold eCosF
    rw [show 18 * me / 7 / (18 * me / 7 + 2 * me) = ((3 : ℝ) / 4) ^ 2 from by
      unfold me
      norm_num]
    rw [Real.sqrt_sq (by norm_num)]
    ring
  intro hmem
  have h2 := hmem.2
  rw [h] at h2
  unfold me at h2
  norm_num at h2

theorem selectNu_ok_elim {st : GenState} {flavor : Option String} {nuThr fU : ℝ}
    {nd : List (ℝ × ℝ)} {fl : String} {Eν : ℝ}
    (h : selectNu st flavor nuThr fU nd = .ok (fl, Eν)) :
    fl ∈ flavors ∧
    rejectionSampling (fun x => getEventRate st fl x)
      (max (npMin st.nuEnergyBins) nuThr) (npMax st.nuEnergyBins)
      (npMax (st.eventRates fl)) nd = .ok Eν := by
  simp only [selectNu] at h
  split at h
  · rename_i hmem
    split at h
    · rename_i e hrej
      simp only [Except.ok.injEq, Prod.mk.injEq] at h
      obtain ⟨h1, h2⟩ := h
      subst h1
      subst h2
      exact ⟨hmem, hrej⟩
    · simp at h
  · simp at h

/-!
Supporting lemmas: on the non-degenerate path the rotation built by
`genEvent` really carries the z axis onto the supernova direction, so the
final consistency assertion `np.isclose(np.dot(eDir, sn_direction), eCos)`
holds exactly in exact arithmetic and never fails there.
-/

theorem rodrigues_maps_z (sn : Vec3) (hsn : dot3 sn sn = 1)
    (hL : norm3 (cross3 zaxis sn) ≠ 0) :
    rodrigues (rotAxisOf sn) (rotAngleOf sn) zaxis = sn := by
  have hsz : dot3 sn zaxis = sn.z := by
    unfold dot3 zaxis
    ring
  have hd : dot3 sn sn = sn.x * sn.x + sn.y * sn.y + sn.z * sn.z := rfl
  rw [hd] at hsn
  have hz1 : -1 ≤ sn.z := by nlinarith [mul_self_nonneg sn.x, mul_self_nonneg sn.y]
  have hz2 : sn.z ≤ 1 := by nlinarith [mul_self_nonneg sn.x, mul_self_nonneg sn.y]
  have hc : Real.cos (rotAngleOf sn) = sn.z := by
    unfold rotAngleOf
    rw [hsz]
    exact Real.cos_arccos hz1 hz2
  have hs : Real.sin (rotAngleOf sn) = norm3 (cross3 zaxis sn) := by
    unfold rotAngleOf
    rw [hsz, Real.sin_arccos]
    unfold norm3 cross3 zaxis dot3
    congr 1
    linear_combination -hsn
  have hcr : cross3 zaxis sn = ⟨-sn.y, sn.x, 0⟩ := by
    unfold cross3 zaxis
    ext <;> ring
  have hL2 : norm3 ⟨-sn.y, sn.x, 0⟩ ≠ 0 := by
    rw [← hcr]
    exact hL
  have hax : rotAxisOf sn = Vec3.smul ⟨-sn.y, sn.x, 0⟩ (1 / norm3 ⟨-sn.y, sn.x, 0⟩) := by
    unfold rotAxisOf
    rw [hcr]
  rw [hcr] at hs
  ext
  · show zaxis.x * Real.cos (rotAngleOf sn)
        + (cross3 (rotAxisOf sn) zaxis).x * Real.sin (rotAngleOf sn)
        + (rotAxisOf sn).x * dot3 (rotAxisOf sn) zaxis * (1 - Real.cos (rotAngleOf sn))
        = sn.x
    rw [hc, hs, hax]
    unfold Vec3.smul cross3 dot3 zaxis
    field_simp
  · show zaxis.y * Real.cos (rotAngleOf sn)
        + (cross3 (rotAxisOf sn) zaxis).y * Real.sin (rotAngleOf sn)
        + (rotAxisOf sn).y * dot3 (rotAxisOf sn) zaxis * (1 - Real.cos (rotAngleOf sn))
        = sn.y
    rw [hc, hs, hax]
    unfold Vec3.smul cross3 dot3 zaxis
    field_simp
  · show zaxis.z * Real.cos (rotAngleOf sn)
        + (cross3 (rotAxisOf sn) zaxis).z * Real.sin (rotAngleOf sn)
        + (rotAxisOf sn).z * dot3 (rotAxisOf sn) zaxis * (1 - Real.cos (rotAngleOf sn))
        = sn.z
    rw [hc, hs, hax]
    unfold Vec3.smul cross3 dot3 zaxis
    field_simp

theorem genEvent_final_assert_holds (sn v : Vec3) (hsn : dot3 sn sn = 1)
    (hL : norm3 (cross3 zaxis sn) ≠ 0) :
    dot3 (rodrigues (rotAxisOf sn) (rotAngleOf sn) v) sn = dot3 v zaxis := by
  have hz := rodrigues_maps_z sn hsn hL
  have ha := dot3_rotAxisOf_self sn hL
  calc dot3 (rodrigues (rotAxisOf sn) (rotAngleOf sn) v) sn
      = dot3 (rodrigues (rotAxisOf sn) (rotAngleOf sn) v)
          (rodrigues (rotAxisOf sn) (rotAngleOf sn) zaxis) := by rw [hz]
    _ = dot3 v zaxis := rodrigues_dot _ _ _ _ ha

/-!
Claim theorems.
-/

/-- C1: when the caller supplies `snDirection = (0, 0, 1)` exactly, the code
does NOT handle the degenerate rotation axis: `np.cross(zaxis, sn)` is the
zero vector, its normalization divides by zero (NaN in numpy), and the final
rotation-consistency assertion fails, so `genEvent` never returns an event
for this direction — on the concrete table `stA` with draws `drawsA` the
call ends in the `InvariantViolation` failure instead of an event.  This
contradicts the claim (and supports the specification's stated requirement
of explicit handling): the code is in the wrong. -/
theorem genEvent_z_direction_never_ok :
    (∀ (st : GenState) (flavor : Option String) (eThr nuThr : ℝ) (d : Draws) (ev : Event),
      genEvent st (some ⟨0, 0, 1⟩) flavor eThr nuThr d ≠ .ok ev) ∧
    genEvent stA (some ⟨0, 0, 1⟩) (some "nue") 1 2 drawsA = .error .invariantViolation := by
  constructor
  · intro st flavor eThr nuThr d ev
    apply genEvent_parallel_z_not_ok
    rw [normalize_v001]
    exact cross_z_001
  · exact runZ_eval

/-- C2 (corrected): the loop draws one more candidate than the claim says:
the convergence error is raised exactly when the first 1001 (not 1000)
candidate draws are all rejected, and an acceptance among the first 1001
draws returns the x of the first accepted draw.  (The raw draw stream is
modelled as a list; the length hypothesis keeps the list from running out
before the loop decides.) -/
theorem rejectionSampling_error_iff_1001_rejected (f : ℝ → ℝ) (xmin xmax ymax : ℝ)
    (draws : List (ℝ × ℝ)) (hlen : 1001 ≤ draws.length) :
    ((rejectionSampling f xmin xmax ymax draws = .error .convergence) ↔
      ∀ i < 1001, ¬ accepts f xmin xmax ymax (draws.getD i (0, 0))) ∧
    (∀ i < 1001, (∀ j < i, ¬ accepts f xmin xmax ymax (draws.getD j (0, 0))) →
      accepts f xmin xmax ymax (draws.getD i (0, 0)) →
      rejectionSampling f xmin xmax ymax draws
        = .ok (uniform xmin xmax (draws.getD i (0, 0)).1)) := by
  constructor
  · constructor
    · intro h i hi
      exact rejLoop_error_implies f xmin xmax ymax draws 0 h i (by omega)
    · intro h
      exact rejLoop_error_of f xmin xmax ymax draws 0 (by omega) (by omega)
        (fun i hi => h i (by omega))
  · intro i hi hrej hacc
    exact rejLoop_accept f xmin xmax ymax draws 0 i (by omega) (by omega) hrej hacc

theorem rejectionSampling_error_iff_1001_rejected_witness :
    1001 ≤ (List.replicate 1001 ((0 : ℝ), (0 : ℝ))).length ∧
    rejectionSampling (fun _ => (1 : ℝ)) 0 1 1 (List.replicate 1001 ((0 : ℝ), (0 : ℝ)))
      = .ok 0 := by
  have hlen : (List.replicate 1001 ((0 : ℝ), (0 : ℝ))).length = 1001 :=
    List.length_replicate 1001 ((0 : ℝ), (0 : ℝ))
  have hget : (List.replicate 1001 ((0 : ℝ), (0 : ℝ))).getD 0 (0, 0) = ((0 : ℝ), (0 : ℝ)) := by
    rw [List.getD_eq_getElem _ _ (by rw [hlen]; omega)]
    exact List.getElem_replicate _ _
  refine ⟨by rw [hlen], ?_⟩
  have h := (rejectionSampling_error_iff_1001_rejected (fun _ => (1 : ℝ)) 0 1 1
    (List.replicate 1001 ((0 : ℝ), (0 : ℝ))) (by rw [hlen])).2 0 (by norm_num)
    (fun j hj => absurd hj (by omega))
    (by rw [hget]; unfold accepts uniform; norm_num)
  rw [h, hget]
  unfold uniform
  norm_num

/-- C2 counterexample: a draw stream whose first 1000 candidates are all
rejected and whose 1001st candidate is accepted.  The claim, as stated,
says the call raises the convergence error once 1000 candidate draws have
been rejected without an acceptance; the code instead examines a 1001st
candidate and returns its x. -/
theorem rejectionSampling_1000_rejected_still_ok :
    (∀ i < 1000, ¬ accepts (fun _ => (1 : ℝ)) 0 1 2 (draws1000.getD i (0, 0))) ∧
    rejectionSampling (fun _ => (1 : ℝ)) 0 1 2 draws1000 = .ok (1 / 2) := by
  have hlen : draws1000.length = 1001 := by
    unfold draws1000
    rw [List.length_append, List.length_replicate]
    rfl
  have hget : ∀ i < 1000, draws1000.getD i (0, 0) = ((0 : ℝ), (1 : ℝ)) := by
    intro i hi
    unfold draws1000
    rw [List.getD_append _ _ _ i (by rw [List.length_replicate]; omega)]
    rw [List.getD_eq_getElem _ _ (by rw [List.length_replicate]; omega)]
    exact List.getElem_replicate _ _
  have hget1000 : draws1000.getD 1000 (0, 0) = ((1 : ℝ) / 2, (0 : ℝ)) := by
    unfold draws1000
    rw [List.getD_append_right _ _ _ 1000 (by rw [List.length_replicate])]
    rw [List.length_replicate]
    rfl
  have hrej : ∀ i < 1000, ¬ accepts (fun _ => (1 : ℝ)) 0 1 2 (draws1000.getD i (0, 0)) := by
    intro i hi
    rw [hget i hi]
    unfold accepts uniform
    norm_num
  refine ⟨hrej, ?_⟩
  have h := rejLoop_accept (fun _ => (1 : ℝ)) 0 1 2 draws1000 0 1000
    (by omega) (by omega) hrej (by rw [hget1000]; unfold accepts uniform; norm_num)
  unfold rejectionSampling
  rw [h, hget1000]
  unfold uniform
  norm_num

/-- C3: every event actually returned by `genEvent` satisfies the hard
geometric invariants: the lab-frame recoil direction lies at cosine
`eCos = eCosF nuEnergy eKE` relative to the (normalized) supernova
direction, and both stored directions are exactly unit-norm (the embedding
works in exact real arithmetic, so the floating-point tolerance of the
claim becomes exact equality). -/
theorem genEvent_ok_invariants (st : GenState) (snIn : Option Vec3)
    (flavor : Option String) (eThr nuThr : ℝ) (d : Draws) (ev : Event)
    (h : genEvent st snIn flavor eThr nuThr d = .ok ev) :
    dot3 ev.eDir ev.sn_direction = eCosF ev.nuEnergy ev.eKE ∧
    norm3 ev.sn_direction = 1 ∧ norm3 ev.eDir = 1 := by
  obtain ⟨fl, Eν, T, hsel, hrej, hguard, haxis, hdot, hev⟩ := genEvent_ok_elim h
  subst hev
  refine ⟨hdot, ?_, ?_⟩
  · apply norm3_normalize
    intro h0
    apply haxis
    have hz : snRawOf snIn d = ⟨0, 0, 0⟩ := (norm3_eq_zero_iff _).mp h0
    rw [hz]
    unfold normalize3 Vec3.smul cross3 zaxis norm3 dot3
    norm_num
  · have ha : dot3 (rotAxisOf (normalize3 (snRawOf snIn d)))
        (rotAxisOf (normalize3 (snRawOf snIn d))) = 1 :=
      dot3_rotAxisOf_self _ haxis
    have he : (eCosF Eν T) ^ 2 ≤ 1 := by nlinarith [hguard.1, hguard.2]
    show norm3 (rodrigues _ _ _) = 1
    rw [norm3_rodrigues _ _ _ ha]
    unfold norm3
    rw [dot3_eDir0_self _ _ he, Real.sqrt_one]

theorem genEvent_ok_invariants_witness :
    genEvent stA (some ⟨2, 0, 0⟩) (some "nue") 1 2 drawsA = .ok evA ∧
    (dot3 evA.eDir evA.sn_direction = eCosF evA.nuEnergy evA.eKE ∧
     norm3 evA.sn_direction = 1 ∧ norm3 evA.eDir = 1) :=
  ⟨runA_eval,
   genEvent_ok_invariants stA (some ⟨2, 0, 0⟩) (some "nue") 1 2 drawsA evA runA_eval⟩

/-- C4 (corrected): the claimed ranges hold for every returned event only
when the sampling intervals are oriented, i.e. when the neutrino-energy
domain satisfies `max(min bins, nuThreshold) ≤ max bins` and the recoil
domain satisfies `eThreshold ≤ maxKE(nuEnergy)`; with those hypotheses (and
the raw uniform draws lying in the unit interval, numpy's contract),
`eKE ∈ [eThreshold, maxKE(nuEnergy)]` and
`nuEnergy ∈ [max(min bins, nuThreshold), max bins]`.  Without the
orientation hypotheses `rng.uniform(low, high)` samples the reversed
interval and the claimed bounds fail (see the counterexample). -/
theorem genEvent_ok_ranges (st : GenState) (snIn : Option Vec3)
    (flavor : Option String) (eThr nuThr : ℝ) (d : Draws) (ev : Event)
    (h : genEvent st snIn flavor eThr nuThr d = .ok ev)
    (hnu : ∀ p ∈ d.nuDraws, 0 ≤ p.1 ∧ p.1 ≤ 1)
    (he : ∀ p ∈ d.eDraws, 0 ≤ p.1 ∧ p.1 ≤ 1)
    (hb : max (npMin st.nuEnergyBins) nuThr ≤ npMax st.nuEnergyBins)
    (hm : eThr ≤ maxKEF ev.nuEnergy) :
    (eThr ≤ ev.eKE ∧ ev.eKE ≤ maxKEF ev.nuEnergy) ∧
    (max (npMin st.nuEnergyBins) nuThr ≤ ev.nuEnergy ∧
      ev.nuEnergy ≤ npMax st.nuEnergyBins) := by
  obtain ⟨fl, Eν, T, hsel, hrej, hguard, haxis, hdot, hev⟩ := genEvent_ok_elim h
  have hnuE : ev.nuEnergy = Eν := by rw [hev]
  have hkE : ev.eKE = T := by rw [hev]
  obtain ⟨hmem, hrejNu⟩ := selectNu_ok_elim hsel
  obtain ⟨p, hp, hxeq, hpacc⟩ := rejLoop_ok_mem _ _ _ _ d.nuDraws 0 Eν hrejNu
  obtain ⟨q, hq, hyeq, hqacc⟩ := rejLoop_ok_mem _ _ _ _ d.eDraws 0 T hrej
  rw [hnuE] at hm
  constructor
  · rw [hkE, hnuE, hyeq]
    have hq1 := he q hq
    exact uniform_bounds _ _ _ hq1.1 hq1.2 hm
  · rw [hnuE, hxeq]
    have hp1 := hnu p hp
    exact uniform_bounds _ _ _ hp1.1 hp1.2 hb

theorem genEvent_ok_ranges_witness :
    genEvent stA (some ⟨2, 0, 0⟩) (some "nue") 1 2 drawsA = .ok evA ∧
    ((1 ≤ evA.eKE ∧ evA.eKE ≤ maxKEF evA.nuEnergy) ∧
     (max (npMin stA.nuEnergyBins) 2 ≤ evA.nuEnergy ∧
       evA.nuEnergy ≤ npMax stA.nuEnergyBins)) := by
  refine ⟨runA_eval, ?_⟩
  apply genEvent_ok_ranges stA (some ⟨2, 0, 0⟩) (some "nue") 1 2 drawsA evA runA_eval
  · intro p hp
    simp only [drawsA, List.mem_singleton] at hp
    rw [hp]
    norm_num
  · intro p hp
    simp only [drawsA, List.mem_singleton] at hp
    rw [hp]
    norm_num
  · unfold stA npMin npMax
    norm_num
  · show (1 : ℝ) ≤ maxKEF evA.nuEnergy
    unfold evA maxKEF me
    norm_num

/-- C4 counterexample: with `eThreshold = 12` and a sampled neutrino energy
of 10 MeV, `maxKE(10) < 12`, so `rng.uniform(12, maxKE(10))` samples the
reversed interval; the run below returns an event whose `eKE = maxKE(10)`
does NOT lie in the (empty) interval `[eThreshold, maxKE(nuEnergy)]`
claimed. -/
theorem genEvent_eKE_outside_claimed_range :
    genEvent stA (some ⟨2, 0, 0⟩) (some "nue") 12 2 drawsD = .ok evD ∧
    ¬ (12 ≤ evD.eKE ∧ evD.eKE ≤ maxKEF evD.nuEnergy) := by
  refine ⟨runD_eval, ?_⟩
  intro hmem
  have h1 := hmem.1
  simp only [evD] at h1
  unfold maxKEF me at h1
  norm_num at h1

/-- C5: for a valid flavor, `getEventRate` is the pure piecewise-linear
interpolation over the (bin, rate) table: it equals `interp` on the zipped
table (no state is read or written beyond the table itself), it reproduces
the tabulated rate exactly at every bin edge, it is flat (first/last rate)
below the first and above the last bin, and on each segment it is the
linear interpolant. -/
theorem getEventRate_piecewise_linear (st : GenState) (fl : String) (x : ℝ)
    (l : List (ℝ × ℝ)) (hfl : fl ∈ flavors)
    (hl : l = st.nuEnergyBins.zip (st.eventRates fl))
    (hs : (l.map Prod.fst).Chain' (· < ·)) (hne : l ≠ []) :
    getEventRate st fl x = interp x l ∧
    (∀ i < l.length, getEventRate st fl (l.getD i (0, 0)).1 = (l.getD i (0, 0)).2) ∧
    (x ≤ (l.head hne).1 → getEventRate st fl x = (l.head hne).2) ∧
    ((l.getLast hne).1 ≤ x → getEventRate st fl x = (l.getLast hne).2) ∧
    (∀ i, i + 1 < l.length → (l.getD i (0, 0)).1 ≤ x → x ≤ (l.getD (i + 1) (0, 0)).1 →
      getEventRate st fl x = (l.getD i (0, 0)).2
        + ((l.getD (i + 1) (0, 0)).2 - (l.getD i (0, 0)).2)
          * (x - (l.getD i (0, 0)).1)
          / ((l.getD (i + 1) (0, 0)).1 - (l.getD i (0, 0)).1)) := by
  have hg : ∀ y, getEventRate st fl y = interp y l := by
    intro y
    rw [hl]
    rfl
  refine ⟨hg x, ?_, ?_, ?_, ?_⟩
  · intro i hi
    rw [hg]
    exact interp_edges l hs i hi
  · intro hx
    rw [hg]
    obtain ⟨p, rest, hcons⟩ := List.exists_cons_of_ne_nil hne
    subst hcons
    simp only [List.head_cons] at hx ⊢
    exact interp_below x p rest hx
  · intro hx
    rw [hg]
    exact interp_above x l hs hne hx
  · intro i h1 h2 h3
    rw [hg]
    exact interp_segment x l hs i h1 h2 h3

theorem getEventRate_piecewise_linear_witness :
    getEventRate stB "nue" 1 = 2 ∧ getEventRate stB "nue" 3 = 6 ∧
    getEventRate stB "nue" 7 = 4 ∧ getEventRate stB "nue" 0 = 2 ∧
    getEventRate stB "nue" 9 = 4 ∧ getEventRate stB "nue" 5 = 5 := by
  have hl : [((1 : ℝ), (2 : ℝ)), (3, 6), (7, 4)]
      = stB.nuEnergyBins.zip (stB.eventRates "nue") := rfl
  have hs : (([((1 : ℝ), (2 : ℝ)), (3, 6), (7, 4)]).map Prod.fst).Chain' (· < ·) := by
    simp [List.chain'_cons]
    norm_num
  have hne : ([((1 : ℝ), (2 : ℝ)), (3, 6), (7, 4)] : List (ℝ × ℝ)) ≠ [] := by simp
  have hfl : ("nue" : String) ∈ flavors := by simp [flavors]
  refine ⟨?_, ?_, ?_, ?_, ?_, ?_⟩
  · have h := (getEventRate_piecewise_linear stB "nue" 1 _ hfl hl hs hne).2.1 0 (by norm_num)
    simpa using h
  · have h := (getEventRate_piecewise_linear stB "nue" 3 _ hfl hl hs hne).2.1 1 (by norm_num)
    simpa using h
  · have h := (getEventRate_piecewise_linear stB "nue" 7 _ hfl hl hs hne).2.1 2 (by norm_num)
    simpa using h
  · have h := (getEventRate_piecewise_linear stB "nue" 0 _ hfl hl hs hne).2.2.1 (by norm_num)
    simpa using h
  · have h := (getEventRate_piecewise_linear stB "nue" 9 _ hfl hl hs hne).2.2.2.1 (by norm_num)
    simpa using h
  · have h := (getEventRate_piecewise_linear stB "nue" 5 _ hfl hl hs hne).2.2.2.2 1
      (by norm_num) (by norm_num) (by norm_num)
    norm_num at h
    exact h

/-- C6: an explicitly supplied flavor is returned unchanged in the selection
result (and hence as the event's flavor), while any string outside the
six-flavor list makes `selectNu` — and hence `genEvent` — fail with the
invalid-flavor error and produce nothing. -/
theorem selectNu_flavor_validation (st : GenState) (fl : String) :
    (∀ (nuThr fU : ℝ) (nd : List (ℝ × ℝ)) (res : String × ℝ),
      selectNu st (some fl) nuThr fU nd = .ok res → res.1 = fl) ∧
    (fl ∉ flavors → ∀ (nuThr fU : ℝ) (nd : List (ℝ × ℝ)),
      selectNu st (some fl) nuThr fU nd = .error .invalidFlavor) ∧
    (fl ∉ flavors → ∀ (snIn : Option Vec3) (eThr nuThr : ℝ) (d : Draws),
      genEvent st snIn (some fl) eThr nuThr d = .error .invalidFlavor) ∧
    (∀ (snIn : Option Vec3) (eThr nuThr : ℝ) (d : Draws) (ev : Event),
      genEvent st snIn (some fl) eThr nuThr d = .ok ev → ev.flavor = fl) := by
  have herr : fl ∉ flavors → ∀ (nuThr fU : ℝ) (nd : List (ℝ × ℝ)),
      selectNu st (some fl) nuThr fU nd = .error .invalidFlavor := by
    intro hmem nuThr fU nd
    simp only [selectNu]
    rw [if_neg hmem]
  refine ⟨?_, herr, ?_, ?_⟩
  · intro nuThr fU nd res h
    simp only [selectNu] at h
    split at h
    · split at h
      · simp only [Except.ok.injEq] at h
        rw [← h]
      · simp at h
    · simp at h
  · intro hmem snIn eThr nuThr d
    simp only [genEvent]
    rw [herr hmem nuThr d.flavorU d.nuDraws]
  · intro snIn eThr nuThr d ev h
    obtain ⟨fl', Eν, T, hsel, _, _, _, _, hev⟩ := genEvent_ok_elim h
    have h1 : fl' = fl := by
      simp only [selectNu] at hsel
      split at hsel
      · split at hsel
        · simp only [Except.ok.injEq, Prod.mk.injEq] at hsel
          exact hsel.1.symm
        · simp at hsel
      · simp at hsel
    rw [hev, h1]

theorem selectNu_flavor_validation_witness :
    (("nue", (2 : ℝ)).1 = "nue") ∧
    selectNu stA (some "nuet") 2 0 [(0, 0)] = .error .invalidFlavor ∧
    genEvent stA (some ⟨2, 0, 0⟩) (some "nuet") 1 2 drawsA = .error .invalidFlavor ∧
    evA.flavor = "nue" :=
  ⟨(selectNu_flavor_validation stA "nue").1 2 0 [(0, 0)] ("nue", 2) selectNuA,
   (selectNu_flavor_validation stA "nuet").2.1 (by simp [flavors]) 2 0 [(0, 0)],
   (selectNu_flavor_validation stA "nuet").2.2.1 (by simp [flavors])
     (some ⟨2, 0, 0⟩) 1 2 drawsA,
   (selectNu_flavor_validation stA "nue").2.2.2 (some ⟨2, 0, 0⟩) 1 2 drawsA evA runA_eval⟩

/-- C7 counterexample: the claim's scenario values are wrong on the code:
at `T = 0` the shape function is `(g_v+gₐ)² + (g_v−gₐ)²`, not `(g_v+gₐ)²`
(the `(1 − T/Eν)²` factor is 1, not 0, at `T = 0`), and
`maxKE(10) = 200/20.51099891`, not `200/20.511` (the claim drops digits of
the electron mass). -/
theorem diffXscn_scenario_ne_claimed :
    diffXscnF (couplings "nue").1 (couplings "nue").2 10 0 ≠ 1.46244 ^ 2 ∧
    maxKEF 10 ≠ 200 / 20.511 := by
  constructor
  · unfold diffXscnF couplings WMA me
    norm_num
  · unfold maxKEF me
    norm_num

/-- C7 (corrected): the cross-section shape, couplings table and kinematic
limit are exactly as claimed, but the scenario values are
`diffXscn(0; 10) = 1.46244² + 0.46244²` (the second coupling term survives
at `T = 0`) and `maxKE(10) = 200/20.51099891` (with the full electron
mass). -/
theorem crossSection_model_values :
    (couplings "nue" = (0.5, 2 * WMA + 1 / 2) ∧
     couplings "nuebar" = (-0.5, 2 * WMA + 1 / 2) ∧
     couplings "numu" = (-0.5, 2 * WMA - 1 / 2) ∧
     couplings "nutau" = (-0.5, 2 * WMA - 1 / 2) ∧
     couplings "numubar" = (0.5, 2 * WMA - 1 / 2) ∧
     couplings "nutaubar" = (0.5, 2 * WMA - 1 / 2)) ∧
    WMA = 0.23122 ∧ me = 0.510998910 ∧
    (∀ ga gv nuE T, diffXscnF ga gv nuE T =
      (gv + ga) ^ 2 + (gv - ga) ^ 2 * (1 - T / nuE) ^ 2
        + (ga ^ 2 - gv ^ 2) * (me * T / nuE ^ 2)) ∧
    (∀ nuE, maxKEF nuE = 2 * nuE ^ 2 / (me + 2 * nuE)) ∧
    diffXscnF (couplings "nue").1 (couplings "nue").2 10 0
      = 1.46244 ^ 2 + 0.46244 ^ 2 ∧
    maxKEF 10 = 200 / 20.51099891 := by
  refine ⟨⟨?_, ?_, ?_, ?_, ?_, ?_⟩, rfl, rfl, fun _ _ _ _ => rfl, fun _ => rfl, ?_, ?_⟩
  · unfold couplings
    rw [if_pos rfl]
  · unfold couplings
    rw [if_neg (by decide), if_pos rfl]
  · unfold couplings
    rw [if_neg (by decide), if_neg (by decide), if_pos (Or.inl rfl)]
  · unfold couplings
    rw [if_neg (by decide), if_neg (by decide), if_pos (Or.inr rfl)]
  · unfold couplings
    rw [if_neg (by decide), if_neg (by decide), if_neg (by decide)]
  · unfold couplings
    rw [if_neg (by decide), if_neg (by decide), if_neg (by decide)]
  · unfold diffXscnF couplings WMA me
    norm_num
  · unfold maxKEF me
    norm_num

/-- C8: the recoil-angle cosine is computed by exactly the claimed formula,
and whenever the computed value falls outside `[-1, 1]` (after a successful
flavor/energy selection and recoil-energy draw) the call fails with the
kinematic error — the value is never clamped and no event is returned. -/
theorem eCos_out_of_range_kinematic (st : GenState) (snIn : Option Vec3)
    (flavor : Option String) (eThr nuThr : ℝ) (d : Draws) (fl : String) (Eν T : ℝ)
    (hsel : selectNu st flavor nuThr d.flavorU d.nuDraws = .ok (fl, Eν))
    (hrej : rejectionSampling (fun t => diffXscnF (couplings fl).1 (couplings fl).2 Eν t)
      eThr (maxKEF Eν) (diffXscnF (couplings fl).1 (couplings fl).2 Eν 0)
      d.eDraws = .ok T)
    (hout : ¬ (-1 ≤ eCosF Eν T ∧ eCosF Eν T ≤ 1)) :
    (∀ nuE t, eCosF nuE t = (nuE + me) / nuE * Real.sqrt (t / (t + 2 * me))) ∧
    genEvent st snIn flavor eThr nuThr d = .error .kinematic := by
  refine ⟨fun _ _ => rfl, ?_⟩
  simp only [genEvent]
  rw [hsel]
  simp only [hrej]
  rw [if_neg hout]

theorem eCos_out_of_range_kinematic_witness :
    selectNu stC (some "nue") 1 drawsC.flavorU drawsC.nuDraws = .ok ("nue", 1) ∧
    ¬ (-1 ≤ eCosF 1 (18 * me / 7) ∧ eCosF 1 (18 * me / 7) ≤ 1) ∧
    genEvent stC (some ⟨1, 0, 0⟩) (some "nue") 1 1 drawsC = .error .kinematic := by
  have hsel : selectNu stC (some "nue") 1 drawsC.flavorU drawsC.nuDraws
      = .ok ("nue", 1) := by
    simp only [drawsC]
    exact selectNuC
  refine ⟨hsel, eCosC_out, ?_⟩
  exact (eCos_out_of_range_kinematic stC (some ⟨1, 0, 0⟩) (some "nue") 1 1 drawsC
    "nue" 1 (18 * me / 7) hsel (by simp only [drawsC]; exact rejE_C) eCosC_out).2

/-- C9: event generation is a deterministic function of the table data, the
RNG draw stream and the call arguments: two generators holding equal tables
and consuming equal raw draw streams produce identical results for
identical call sequences.  (Numpy guarantees that equal seeds yield equal
raw draw streams; the streams are the explicit model of the seeded RNG
here.) -/
theorem genEvents_deterministic (st₁ st₂ : GenState)
    (calls₁ calls₂ : List ((Option Vec3) × (Option String) × ℝ × ℝ × Draws))
    (hst : st₁ = st₂) (hc : calls₁ = calls₂) :
    genEvents st₁ calls₁ = genEvents st₂ calls₂ := by
  rw [hst, hc]

theorem genEvents_deterministic_witness :
    genEvents stA [(some ⟨2, 0, 0⟩, some "nue", 1, 2, drawsA)]
      = genEvents stA [(some ⟨2, 0, 0⟩, some "nue", 1, 2, drawsA)] :=
  genEvents_deterministic stA stA _ _ rfl rfl

/-- C10 (corrected): a caller-supplied `sn_direction` is never rejected for
not being unit-norm — every returned event carries
`sn_direction = input / ‖input‖` — but inputs parallel to the z axis
(including unit `(0,0,1)` and non-unit `(0,0,2)`) hit the degenerate
rotation axis and never produce an event, so acceptance of every
nonzero-norm input, as claimed, is false. -/
theorem genEvent_sn_normalized (st : GenState) (v : Vec3) (flavor : Option String)
    (eThr nuThr : ℝ) (d : Draws) (ev : Event)
    (h : genEvent st (some v) flavor eThr nuThr d = .ok ev) :
    ev.sn_direction = v.smul (1 / norm3 v) := by
  obtain ⟨fl, Eν, T, _, _, _, _, _, hev⟩ := genEvent_ok_elim h
  rw [hev]
  rfl

theorem genEvent_sn_normalized_witness :
    genEvent stA (some ⟨2, 0, 0⟩) (some "nue") 1 2 drawsA = .ok evA ∧
    evA.sn_direction = Vec3.smul ⟨2, 0, 0⟩ (1 / norm3 ⟨2, 0, 0⟩) :=
  ⟨runA_eval,
   genEvent_sn_normalized stA ⟨2, 0, 0⟩ (some "nue") 1 2 drawsA evA runA_eval⟩

/-- C10 counterexample: the input `(0, 0, 2)` has nonzero norm, yet
`genEvent` does not accept it: the run fails with the rotation-consistency
failure (NaN rotation axis) instead of returning an event. -/
theorem genEvent_nonunit_parallel_input_error :
    norm3 ⟨0, 0, 2⟩ ≠ 0 ∧
    genEvent stA (some ⟨0, 0, 2⟩) (some "nue") 1 2 drawsA
      = .error .invariantViolation := by
  constructor
  · rw [norm3_v002]
    norm_num
  · exact runZ2_eval

end EESGen
